import Mathlib

/-!
Verification of the `pragma-etl` batch ETL pipeline.

Shallow embedding of the repository's Python sources:
  * `src/etl/extract.py`   — `get_data_files`, `micro_batches_generator`
  * `src/etl/transform.py` — `add_processed_date`, `convert_to_date`, `add_date_partition`
  * `src/etl/load.py`      — `load_row`
  * `src/run_data_pipeline.py` — `run_data_pipeline`

Modelling conventions:
  * Prices are rationals (`ℚ`); a missing/NaN price is `none : Option ℚ`.
  * Python exceptions are values of `PipelineError`; a raised exception is
    reported in the `err` field of the driver's output (`StepOut.err`) or in
    the `Except`/`GenRun` result of a component.  The spec's error taxonomy
    names the `ValueError` raised for mutually exclusive flags a
    `ConfigurationError`, and the timestamp-format failure a `ParseError`;
    we use the spec's names for those kinds.
  * The database is abstracted by `loadOk : ℕ → Bool`, telling whether the
    single-row INSERT issued for the i-th row of the run (1-based, counted
    across all files) succeeds; a `false` models `db.insert` raising.
  * The wall clock used by `add_processed_date` is passed in as `now : ℕ`.
  * Observable side effects (SQL inserts, metrics-log records) are collected
    in an event trace (`Event`).  Operational log lines are not modelled
    (observability is an external collaborator in the spec).
-/

/-- Error kinds, named as in the spec's error-handling design (§7).
`ZeroDivisionError` is the Python exception raised by
`sum(valid_values) / len(valid_values)` when `valid_values` is empty. -/
inductive PipelineError where
  | ConfigurationError
  | IOError
  | ParseError
  | PersistenceError
  | ZeroDivisionError
deriving DecidableEq

/-- A calendar date, the result of parsing a raw timestamp string. -/
structure Date where
  year : ℕ
  month : ℕ
  day : ℕ
deriving DecidableEq

/-- Gregorian leap-year rule, as implemented by Python's `datetime`. -/
def isLeapYear (y : ℕ) : Bool :=
  (y % 4 == 0 && y % 100 != 0) || y % 400 == 0

/-- Number of days in a month, as validated by Python's `datetime`. -/
def daysInMonth (m y : ℕ) : ℕ :=
  if m = 2 then (if isLeapYear y then 29 else 28)
  else if m = 4 ∨ m = 6 ∨ m = 9 ∨ m = 11 then 30
  else 31

/-- `strptime`-style parsing of a timestamp with format `"%m/%d/%Y"`, the
format string passed to `pd.to_datetime` in `convert_to_date`
(src/etl/transform.py line 20): month, then day, then a 4-digit year,
separated by slashes; leading zeros optional; the date must exist in the
calendar.  A failure models the `ParseError` kind of the spec. -/
def strptime_mdY (s : String) : Except PipelineError Date :=
  match s.splitOn "/" with
  | [ms, ds, ys] =>
    match ms.toNat?, ds.toNat?, ys.toNat? with
    | some m, some d, some y =>
      if 1 ≤ ms.length ∧ ms.length ≤ 2 ∧ 1 ≤ ds.length ∧ ds.length ≤ 2 ∧
         ys.length = 4 ∧ 1 ≤ m ∧ m ≤ 12 ∧ 1 ≤ d ∧ d ≤ daysInMonth m y ∧ 1 ≤ y
      then Except.ok ⟨y, m, d⟩
      else Except.error PipelineError.ParseError
    | _, _, _ => Except.error PipelineError.ParseError
  | _ => Except.error PipelineError.ParseError

/-- A row as read from a CSV file by the Chunk Reader: the raw `timestamp`
string, the nullable `price`, and the `user_id`. -/
structure RawRow where
  timestamp : String
  price : Option ℚ
  user_id : ℤ
deriving DecidableEq

/-- A row after `add_processed_date`: a `processed_date` column was added. -/
structure StampedRow where
  timestamp : String
  price : Option ℚ
  user_id : ℤ
  processed_date : ℕ
deriving DecidableEq

/-- A row after `convert_to_date`: the `timestamp` column now holds a date. -/
structure DatedRow where
  timestamp : Date
  price : Option ℚ
  user_id : ℤ
  processed_date : ℕ
deriving DecidableEq

/-- A row after `add_date_partition`: `day`, `month`, `year` were added. -/
structure TRow where
  timestamp : Date
  day : ℕ
  month : ℕ
  year : ℕ
  price : Option ℚ
  user_id : ℤ
  processed_date : ℕ
deriving DecidableEq

/-- `add_processed_date` (src/etl/transform.py lines 7-14):
`chunk["processed_date"] = pd.to_datetime("now")` — every row of the chunk
gets the current wall-clock time, passed in here as `now`. -/
def add_processed_date (now : ℕ) (chunk : List RawRow) : List StampedRow :=
  chunk.map fun r => ⟨r.timestamp, r.price, r.user_id, now⟩

/-- `convert_to_date` (src/etl/transform.py lines 17-24):
`chunk["timestamp"] = pd.to_datetime(chunk["timestamp"], format="%m/%d/%Y")`.
The whole column is parsed; if any value fails to parse the whole chunk
fails with a `ParseError` and no row of it is produced. -/
def convert_to_date : List StampedRow → Except PipelineError (List DatedRow)
  | [] => Except.ok []
  | r :: rs =>
    match strptime_mdY r.timestamp with
    | Except.error e => Except.error e
    | Except.ok d =>
      match convert_to_date rs with
      | Except.error e => Except.error e
      | Except.ok ds => Except.ok (⟨d, r.price, r.user_id, r.processed_date⟩ :: ds)

/-- `add_date_partition` (src/etl/transform.py lines 27-36): copy the parsed
timestamp's day, month, year into separate columns of the row. -/
def add_date_partition (r : DatedRow) : TRow :=
  ⟨r.timestamp, r.timestamp.day, r.timestamp.month, r.timestamp.year,
   r.price, r.user_id, r.processed_date⟩

/-- The 7-tuple of values bound to the parameterized INSERT in `load_row`
(src/etl/load.py lines 11-19); each slot is `none` when the pandas value is
missing (`pd.notna` fails). -/
structure InsertValues where
  timestamp : Option Date
  day : Option ℕ
  month : Option ℕ
  year : Option ℕ
  price : Option ℚ
  user_id : Option ℤ
  processed_date : Option ℕ
deriving DecidableEq

/-- `values_to_insert` from `load_row` (src/etl/load.py lines 11-19).  After
the transform stage only `price` can be missing; `row.price if
pd.notna(row.price) else None` is the identity on the modelled option. -/
def valuesToInsert (row : TRow) : InsertValues :=
  ⟨some row.timestamp, some row.day, some row.month, some row.year,
   (match row.price with | some p => some p | none => none),
   some row.user_id, some row.processed_date⟩

/-- Per-row metrics computed by the driver's inner loop
(src/run_data_pipeline.py lines 42-78): the values logged by
`metrics_logger.info` plus `count`, the divisor `len(valid_values)` used to
compute the average on line 51. -/
structure RowMetrics where
  file : String
  microbatch : ℕ
  total_rows_file : ℕ
  rowPrice : Option ℚ
  total_rows : ℕ
  count : ℕ
  sum : ℚ
  avg : ℚ
  min : ℚ
  max : ℚ
deriving DecidableEq

/-- Observable effects of a pipeline run: a database insert issued by
`load_row`, or a metrics record emitted by `metrics_logger.info`. -/
inductive Event where
  | insert (table : String) (values : InsertValues)
  | metrics (m : RowMetrics)
deriving DecidableEq

/-- Python's `min` over a nonempty list (`min_price = min(valid_values)`,
src/run_data_pipeline.py line 52); the `[]` case never feeds the driver
because the empty list makes line 51 raise first. -/
def pyMin : List ℚ → ℚ
  | [] => 0
  | x :: xs => xs.foldl min x

/-- Python's `max` over a nonempty list (`max_price = max(valid_values)`,
src/run_data_pipeline.py line 53). -/
def pyMax : List ℚ → ℚ
  | [] => 0
  | x :: xs => xs.foldl max x

/-- `load_row` (src/etl/load.py lines 8-28): one parameterized single-row
INSERT.  `db.insert` is abstracted by `loadOk` applied to the global 1-based
index `gi` of the row in the run; `false` models the database raising, which
`load_row` logs and re-raises as the spec's `PersistenceError`. -/
def load_row (loadOk : ℕ → Bool) (gi : ℕ) (table : String) (row : TRow) :
    Except PipelineError Event :=
  if loadOk gi then Except.ok (Event.insert table (valuesToInsert row))
  else Except.error PipelineError.PersistenceError

/-- Driver state carried across the whole run (src/run_data_pipeline.py
lines 25-26): `total_rows = 0`, `prices = []`. -/
structure DriverState where
  total_rows : ℕ
  prices : List (Option ℚ)
deriving DecidableEq

/-- Result of (part of) a pipeline run: final driver state, the per-file
counter `total_rows_file`, the trace of observable events, and the
exception (if any) that aborted the run. -/
structure StepOut where
  st : DriverState
  trf : ℕ
  events : List Event
  err : Option PipelineError
deriving DecidableEq

/-- The body of the per-row loop of `run_data_pipeline`
(src/run_data_pipeline.py lines 42-78), for one row:
increment `total_rows` and `total_rows_file`; append the row's price (or
null) to `prices`; recompute sum, average, min, max over the non-null
subset (average raises `ZeroDivisionError` when that subset is empty);
invoke `load_row`; emit the metrics record.  State updates precede the
load; the metrics record follows it. -/
def processRow (loadOk : ℕ → Bool) (table f : String) (nb : ℕ)
    (st : DriverState) (trf : ℕ) (row : TRow) : StepOut :=
  let total_rows := st.total_rows + 1
  let total_rows_file := trf + 1
  let actual_row_price := row.price
  let prices := st.prices ++ [actual_row_price]
  let valid_values := prices.filterMap id
  match valid_values with
  | [] =>
    ⟨⟨total_rows, prices⟩, total_rows_file, [], some PipelineError.ZeroDivisionError⟩
  | v :: vs =>
    let sum_price := (v :: vs).sum
    let avg_price := sum_price / ((v :: vs).length : ℚ)
    let min_price := pyMin (v :: vs)
    let max_price := pyMax (v :: vs)
    match load_row loadOk total_rows table row with
    | Except.error e => ⟨⟨total_rows, prices⟩, total_rows_file, [], some e⟩
    | Except.ok ev =>
      ⟨⟨total_rows, prices⟩, total_rows_file,
       [ev, Event.metrics ⟨f, nb, total_rows_file, actual_row_price, total_rows,
                          (v :: vs).length, sum_price, avg_price, min_price, max_price⟩],
       none⟩

/-- The row loop of `run_data_pipeline` over one (transformed) micro-batch
(src/run_data_pipeline.py line 42): rows in order, stopping at the first
exception, which propagates. -/
def processRows (loadOk : ℕ → Bool) (table f : String) (nb : ℕ) :
    DriverState → ℕ → List TRow → StepOut
  | st, trf, [] => ⟨st, trf, [], none⟩
  | st, trf, r :: rs =>
    let out := processRow loadOk table f nb st trf r
    match out.err with
    | some _ => out
    | none =>
      let rest := processRows loadOk table f nb out.st out.trf rs
      ⟨rest.st, rest.trf, out.events ++ rest.events, rest.err⟩

/-- The micro-batch loop of `run_data_pipeline` (src/run_data_pipeline.py
lines 35-79): for each chunk, `add_processed_date`, `convert_to_date`
(whose `ParseError` aborts the run), `add_date_partition` per row, then the
row loop.  `nb` is the 1-based micro-batch index `n+1`. -/
def processChunks (loadOk : ℕ → Bool) (table f : String) (now : ℕ) :
    DriverState → ℕ → ℕ → List (List RawRow) → StepOut
  | st, trf, _, [] => ⟨st, trf, [], none⟩
  | st, trf, nb, c :: cs =>
    match convert_to_date (add_processed_date now c) with
    | Except.error e => ⟨st, trf, [], some e⟩
    | Except.ok dated =>
      let rows := dated.map add_date_partition
      let out := processRows loadOk table f nb st trf rows
      match out.err with
      | some _ => out
      | none =>
        let rest := processChunks loadOk table f now out.st out.trf (nb + 1) cs
        ⟨rest.st, rest.trf, out.events ++ rest.events, rest.err⟩

/-- Chunking of a file's rows by `pd.read_csv(file_path, chunksize=...)`:
consecutive groups of `cs` rows, the last group possibly shorter.  `fuel`
bounds the recursion; it is instantiated with the list's length. -/
def chunksOfAux (cs : ℕ) : ℕ → List RawRow → List (List RawRow)
  | 0, _ => []
  | _, [] => []
  | fuel + 1, x :: xs => (x :: xs.take (cs - 1)) :: chunksOfAux cs fuel (xs.drop (cs - 1))

/-- Chunking of a file's rows into micro-batches of size `cs`. -/
def chunksOf (cs : ℕ) (l : List RawRow) : List (List RawRow) :=
  chunksOfAux cs l.length l

/-- `micro_batches_generator` (src/etl/extract.py lines 30-38): the finite
sequence of micro-batches `pd.read_csv(file_path, chunksize=chunk_size)`
yields for a file, in file order.  A file is modelled by its parsed row
contents.  `pd.read_csv` rejects `chunksize=0` ("chunksize must be a
positive integer", a bad-settings `ValueError`, the spec's
`ConfigurationError` kind). -/
def micro_batches_generator (chunk_size : ℕ) (contents : List RawRow) :
    Except PipelineError (List (List RawRow)) :=
  if chunk_size = 0 then Except.error PipelineError.ConfigurationError
  else Except.ok (chunksOf chunk_size contents)

/-- The file loop of `run_data_pipeline` (src/run_data_pipeline.py lines
29-81): for each file (given as path plus parsed contents), reset the
per-file counter, materialize the micro-batches, and run the chunk loop;
any exception aborts the remaining files. -/
def processFiles (loadOk : ℕ → Bool) (table : String) (chunk_size now : ℕ) :
    DriverState → List (String × List RawRow) → StepOut
  | st, [] => ⟨st, 0, [], none⟩
  | st, fc :: fcs =>
    match micro_batches_generator chunk_size fc.2 with
    | Except.error e => ⟨st, 0, [], some e⟩
    | Except.ok chunks =>
      let out := processChunks loadOk table fc.1 now st 0 1 chunks
      match out.err with
      | some _ => out
      | none =>
        let rest := processFiles loadOk table chunk_size now out.st fcs
        ⟨rest.st, rest.trf, out.events ++ rest.events, rest.err⟩

/-- `run_data_pipeline` (src/run_data_pipeline.py lines 16-81):
`total_rows = 0; prices = []`, then the file loop. -/
def run_data_pipeline (loadOk : ℕ → Bool) (table : String)
    (chunk_size now : ℕ) (files : List (String × List RawRow)) : StepOut :=
  processFiles loadOk table chunk_size now ⟨0, []⟩ files

/-- The insert events of a trace, in order: the rows actually persisted. -/
def insertsOf (events : List Event) : List InsertValues :=
  events.filterMap fun e =>
    match e with
    | Event.insert _ v => some v
    | _ => none

/-- The statistics part of one metrics record. -/
structure StatRec where
  rowPrice : Option ℚ
  count : ℕ
  sum : ℚ
  avg : ℚ
  min : ℚ
  max : ℚ
deriving DecidableEq

/-- Projection of a metrics record to its statistics part. -/
def statView (m : RowMetrics) : StatRec :=
  ⟨m.rowPrice, m.count, m.sum, m.avg, m.min, m.max⟩

/-- The statistics of the metrics records of a trace, in order. -/
def metricsStats (events : List Event) : List StatRec :=
  events.filterMap fun e =>
    match e with
    | Event.metrics m => some (statView m)
    | _ => none

/-- The statistics the driver computes when the accumulated price history is
`h` and the current row's price is `p`: the four aggregates over the
non-null subset of `h`, with `count` the divisor of the average. -/
def statRecOf (h : List (Option ℚ)) (p : Option ℚ) : StatRec :=
  let v := h.filterMap id
  ⟨p, v.length, v.sum, v.sum / (v.length : ℚ), pyMin v, pyMax v⟩

/-- The sequence of per-row statistics produced when rows with prices `ps`
are processed starting from price history `h`. -/
def statsTrace (h : List (Option ℚ)) : List (Option ℚ) → List StatRec
  | [] => []
  | p :: ps => statRecOf (h ++ [p]) p :: statsTrace (h ++ [p]) ps

/-- All rows of a run's file set, in processing order. -/
def allRawRows (files : List (String × List RawRow)) : List RawRow :=
  (files.map Prod.snd).flatten

/-- The transformation of one raw row as performed by the transform stage
when its timestamp parses; the error branch is never reached under the
parseability hypotheses of the theorems that use this. -/
def transformRowTotal (now : ℕ) (r : RawRow) : TRow :=
  match strptime_mdY r.timestamp with
  | Except.ok d => ⟨d, d.day, d.month, d.year, r.price, r.user_id, now⟩
  | Except.error _ => ⟨⟨0, 0, 0⟩, 0, 0, 0, r.price, r.user_id, now⟩

/-- A database that accepts every single-row INSERT except the one issued
for the `k`-th row of the run. -/
def failAt (k : ℕ) : ℕ → Bool := fun i => decide (i ≠ k)

/-- The runs from price history `h` over upcoming prices `ps` that do not
raise `ZeroDivisionError` at their first row: either a non-null price was
already seen, or the first upcoming price is non-null. -/
def noInitialCrash (h ps : List (Option ℚ)) : Prop :=
  h.filterMap id ≠ [] ∨ ∀ p, ps.head? = some p → p ≠ none

/-- Substring test: Python's `"validation" in f` (src/etl/extract.py lines
19 and 21), via `splitOn` (a nonempty pattern occurs iff splitting on it
yields more than one part). -/
def containsSub (pat s : String) : Bool := (s.splitOn pat).length != 1

/-- The result of iterating a Python generator to exhaustion: the values it
yielded, and the exception (if any) that ended the iteration. -/
structure GenRun (α : Type) where
  yielded : List α
  error : Option PipelineError
deriving DecidableEq

/-- A Python generator object, as returned by calling a generator function:
the function body has not run yet; `body` is what iterating it produces. -/
structure PyGen (α : Type) where
  body : GenRun α
deriving DecidableEq

/-- What the first `next()` on a generator produces: the first yielded
value, or the exception raised before the first yield. -/
def PyGen.firstNext (g : PyGen α) : Except PipelineError (Option α) :=
  match g.body.yielded with
  | x :: _ => Except.ok (some x)
  | [] =>
    match g.body.error with
    | some e => Except.error e
    | none => Except.ok none

/-- The body of `get_data_files` (src/etl/extract.py lines 8-27), run on a
directory listing: raise for mutually exclusive flags (a `ValueError`, the
spec's `ConfigurationError` kind); otherwise sort the `.csv` paths and
filter by the `"validation"` substring, yielding each path. -/
def get_data_files_body (exclude_validation only_validation : Bool)
    (listing : List String) : GenRun String :=
  if exclude_validation && only_validation then
    ⟨[], some PipelineError.ConfigurationError⟩
  else
    let files := List.insertionSort (fun a b => a ≤ b)
      ((listing.filter (fun f => f.endsWith ".csv")).map (fun f => "./data/" ++ f))
    let files := if exclude_validation then
      files.filter (fun f => !containsSub "validation" f) else files
    let files := if only_validation then
      files.filter (fun f => containsSub "validation" f) else files
    ⟨files, none⟩

/-- `get_data_files` (src/etl/extract.py lines 8-27) is a generator
function: calling it executes none of its body and returns a generator
object; the body runs when the generator is iterated. -/
def get_data_files (exclude_validation only_validation : Bool)
    (listing : List String) : PyGen String :=
  ⟨get_data_files_body exclude_validation only_validation listing⟩

/-- Rows to feed concrete example runs: prices 10, null, 30, null, 20. -/
def exampleRows : List RawRow :=
  [⟨"01/15/2023", some 10, 1⟩, ⟨"01/15/2023", none, 2⟩, ⟨"01/15/2023", some 30, 3⟩,
   ⟨"01/15/2023", none, 4⟩, ⟨"01/15/2023", some 20, 5⟩]

/-- Two files with three rows total, for concrete load-failure runs. -/
def exampleFiles : List (String × List RawRow) :=
  [("a.csv", [⟨"01/15/2023", some 10, 1⟩, ⟨"01/15/2023", none, 2⟩]),
   ("b.csv", [⟨"01/15/2023", some 30, 3⟩])]

theorem chunksOfAux_flatten (cs : ℕ) :
    ∀ (fuel : ℕ) (l : List RawRow), l.length ≤ fuel →
      (chunksOfAux cs fuel l).flatten = l := by
  intro fuel
  induction fuel with
  | zero =>
    intro l hl
    have : l = [] := List.eq_nil_of_length_eq_zero (Nat.le_zero.mp hl)
    subst this
    rfl
  | succ n ih =>
    intro l hl
    cases l with
    | nil => rfl
    | cons x xs =>
      have hx : xs.length ≤ n := by
        simpa [Nat.succ_le_succ_iff] using hl
      have hd : (xs.drop (cs - 1)).length ≤ n := by
        simp only [List.length_drop]
        omega
      simp only [chunksOfAux, List.flatten_cons, ih _ hd]
      simp [List.take_append_drop]

theorem chunksOf_flatten (cs : ℕ) (l : List RawRow) :
    (chunksOf cs l).flatten = l :=
  chunksOfAux_flatten cs l.length l le_rfl

theorem chunksOfAux_length_le (cs : ℕ) (hcs : 1 ≤ cs) :
    ∀ (fuel : ℕ) (l : List RawRow) (b : List RawRow),
      b ∈ chunksOfAux cs fuel l → b.length ≤ cs := by
  intro fuel
  induction fuel with
  | zero => intro l b hb; simp [chunksOfAux] at hb
  | succ n ih =>
    intro l b hb
    cases l with
    | nil => simp [chunksOfAux] at hb
    | cons x xs =>
      simp only [chunksOfAux, List.mem_cons] at hb
      rcases hb with hb | hb
      · subst hb
        simp only [List.length_cons, List.length_take]
        omega
      · exact ih _ _ hb

theorem chunksOf_length_le (cs : ℕ) (hcs : 1 ≤ cs) (l : List RawRow)
    (b : List RawRow) (hb : b ∈ chunksOf cs l) : b.length ≤ cs :=
  chunksOfAux_length_le cs hcs l.length l b hb

theorem pyMin_append_singleton (v : List ℚ) (a : ℚ) (hv : v ≠ []) :
    pyMin (v ++ [a]) = min (pyMin v) a := by
  cases v with
  | nil => exact absurd rfl hv
  | cons x xs => simp [pyMin, List.foldl_append]

theorem pyMax_append_singleton (v : List ℚ) (a : ℚ) (hv : v ≠ []) :
    pyMax (v ++ [a]) = max (pyMax v) a := by
  cases v with
  | nil => exact absurd rfl hv
  | cons x xs => simp [pyMax, List.foldl_append]

theorem filterMap_append_none (h : List (Option ℚ)) :
    (h ++ [none]).filterMap id = h.filterMap id := by
  simp [List.filterMap_append]

theorem filterMap_append_some (h : List (Option ℚ)) (a : ℚ) :
    (h ++ [some a]).filterMap id = h.filterMap id ++ [a] := by
  simp [List.filterMap_append]

theorem statsTrace_append (a : List (Option ℚ)) :
    ∀ (h b : List (Option ℚ)),
      statsTrace h (a ++ b) = statsTrace h a ++ statsTrace (h ++ a) b := by
  induction a with
  | nil => intro h b; simp [statsTrace]
  | cons p ps ih =>
    intro h b
    simp only [List.cons_append, statsTrace, List.append_eq]
    rw [ih (h ++ [p]) b]
    simp [List.append_assoc]

theorem length_statsTrace (ps : List (Option ℚ)) :
    ∀ (h : List (Option ℚ)), (statsTrace h ps).length = ps.length := by
  induction ps with
  | nil => intro h; rfl
  | cons p ps ih => intro h; simp [statsTrace, ih]

theorem statsTrace_get? (ps : List (Option ℚ)) :
    ∀ (h : List (Option ℚ)) (i : ℕ),
      (statsTrace h ps).get? i =
        (ps.get? i).map (fun p => statRecOf (h ++ ps.take (i + 1)) p) := by
  induction ps with
  | nil => intro h i; simp [statsTrace]
  | cons p ps ih =>
    intro h i
    cases i with
    | zero => simp [statsTrace]
    | succ j =>
      simp only [statsTrace, List.get?_cons_succ, ih (h ++ [p]) j, List.take_succ_cons,
        List.append_assoc, List.singleton_append]

theorem statsTrace_map_rowPrice (ps : List (Option ℚ)) :
    ∀ (h : List (Option ℚ)), (statsTrace h ps).map StatRec.rowPrice = ps := by
  induction ps with
  | nil => intro h; rfl
  | cons p ps ih => intro h; simp [statsTrace, statRecOf, ih]

theorem metricsStats_append (e₁ e₂ : List Event) :
    metricsStats (e₁ ++ e₂) = metricsStats e₁ ++ metricsStats e₂ :=
  List.filterMap_append e₁ e₂ _

theorem insertsOf_append (e₁ e₂ : List Event) :
    insertsOf (e₁ ++ e₂) = insertsOf e₁ ++ insertsOf e₂ :=
  List.filterMap_append e₁ e₂ _

theorem processRow_crash (loadOk : ℕ → Bool) (table f : String) (nb : ℕ)
    (st : DriverState) (trf : ℕ) (r : TRow)
    (hv : (st.prices ++ [r.price]).filterMap id = []) :
    processRow loadOk table f nb st trf r =
      ⟨⟨st.total_rows + 1, st.prices ++ [r.price]⟩, trf + 1, [],
       some PipelineError.ZeroDivisionError⟩ := by
  simp [processRow, hv]

theorem processRow_loadfail (loadOk : ℕ → Bool) (table f : String) (nb : ℕ)
    (st : DriverState) (trf : ℕ) (r : TRow)
    (hv : (st.prices ++ [r.price]).filterMap id ≠ [])
    (hld : loadOk (st.total_rows + 1) = false) :
    processRow loadOk table f nb st trf r =
      ⟨⟨st.total_rows + 1, st.prices ++ [r.price]⟩, trf + 1, [],
       some PipelineError.PersistenceError⟩ := by
  obtain ⟨v, vs, hvv⟩ := List.exists_cons_of_ne_nil hv
  simp [processRow, hvv, load_row, hld]

theorem processRow_ok (loadOk : ℕ → Bool) (table f : String) (nb : ℕ)
    (st : DriverState) (trf : ℕ) (r : TRow)
    (hv : (st.prices ++ [r.price]).filterMap id ≠ [])
    (hld : loadOk (st.total_rows + 1) = true) :
    processRow loadOk table f nb st trf r =
      ⟨⟨st.total_rows + 1, st.prices ++ [r.price]⟩, trf + 1,
       [Event.insert table (valuesToInsert r),
        Event.metrics ⟨f, nb, trf + 1, r.price, st.total_rows + 1,
          ((st.prices ++ [r.price]).filterMap id).length,
          ((st.prices ++ [r.price]).filterMap id).sum,
          ((st.prices ++ [r.price]).filterMap id).sum /
            (((st.prices ++ [r.price]).filterMap id).length : ℚ),
          pyMin ((st.prices ++ [r.price]).filterMap id),
          pyMax ((st.prices ++ [r.price]).filterMap id)⟩], none⟩ := by
  obtain ⟨v, vs, hvv⟩ := List.exists_cons_of_ne_nil hv
  simp [processRow, hvv, load_row, hld]

theorem statView_eq_statRecOf (f : String) (nb trf tr : ℕ) (p : Option ℚ)
    (h : List (Option ℚ)) :
    statView ⟨f, nb, trf, p, tr, (h.filterMap id).length, (h.filterMap id).sum,
      (h.filterMap id).sum / ((h.filterMap id).length : ℚ),
      pyMin (h.filterMap id), pyMax (h.filterMap id)⟩ = statRecOf h p := rfl

theorem processRows_metrics_shape (loadOk : ℕ → Bool) (table f : String) (nb : ℕ) :
    ∀ (rows : List TRow) (st : DriverState) (trf : ℕ),
      ∃ ps : List (Option ℚ),
        metricsStats (processRows loadOk table f nb st trf rows).events =
          statsTrace st.prices ps ∧
        (∀ s ∈ metricsStats (processRows loadOk table f nb st trf rows).events,
          0 < s.count) ∧
        ((processRows loadOk table f nb st trf rows).err = none →
          ps = rows.map TRow.price ∧
          (processRows loadOk table f nb st trf rows).st.prices = st.prices ++ ps) := by
  intro rows
  induction rows with
  | nil =>
    intro st trf
    refine ⟨[], ?_, ?_, ?_⟩ <;> simp [processRows, metricsStats, statsTrace]
  | cons r rs ih =>
    intro st trf
    by_cases hv : (st.prices ++ [r.price]).filterMap id = []
    · have hrow := processRow_crash loadOk table f nb st trf r hv
      refine ⟨[], ?_, ?_, ?_⟩ <;>
        simp [processRows, hrow, metricsStats, statsTrace]
    · cases hld : loadOk (st.total_rows + 1) with
      | false =>
        have hrow := processRow_loadfail loadOk table f nb st trf r hv hld
        refine ⟨[], ?_, ?_, ?_⟩ <;>
          simp [processRows, hrow, metricsStats, statsTrace]
      | true =>
        have hrow := processRow_ok loadOk table f nb st trf r hv hld
        obtain ⟨ps', h1, h2, h3⟩ :=
          ih ⟨st.total_rows + 1, st.prices ++ [r.price]⟩ (trf + 1)
        have hstep : processRows loadOk table f nb st trf (r :: rs) =
            ⟨(processRows loadOk table f nb ⟨st.total_rows + 1, st.prices ++ [r.price]⟩
                (trf + 1) rs).st,
             (processRows loadOk table f nb ⟨st.total_rows + 1, st.prices ++ [r.price]⟩
                (trf + 1) rs).trf,
             [Event.insert table (valuesToInsert r),
              Event.metrics ⟨f, nb, trf + 1, r.price, st.total_rows + 1,
                ((st.prices ++ [r.price]).filterMap id).length,
                ((st.prices ++ [r.price]).filterMap id).sum,
                ((st.prices ++ [r.price]).filterMap id).sum /
                  (((st.prices ++ [r.price]).filterMap id).length : ℚ),
                pyMin ((st.prices ++ [r.price]).filterMap id),
                pyMax ((st.prices ++ [r.price]).filterMap id)⟩] ++
              (processRows loadOk table f nb ⟨st.total_rows + 1, st.prices ++ [r.price]⟩
                (trf + 1) rs).events,
             (processRows loadOk table f nb ⟨st.total_rows + 1, st.prices ++ [r.price]⟩
                (trf + 1) rs).err⟩ := by
          simp [processRows, hrow]
        have hE : (processRows loadOk table f nb st trf (r :: rs)).events =
            [Event.insert table (valuesToInsert r),
             Event.metrics ⟨f, nb, trf + 1, r.price, st.total_rows + 1,
               ((st.prices ++ [r.price]).filterMap id).length,
               ((st.prices ++ [r.price]).filterMap id).sum,
               ((st.prices ++ [r.price]).filterMap id).sum /
                 (((st.prices ++ [r.price]).filterMap id).length : ℚ),
               pyMin ((st.prices ++ [r.price]).filterMap id),
               pyMax ((st.prices ++ [r.price]).filterMap id)⟩] ++
            (processRows loadOk table f nb ⟨st.total_rows + 1, st.prices ++ [r.price]⟩
              (trf + 1) rs).events := by
          rw [hstep]
        have hErr : (processRows loadOk table f nb st trf (r :: rs)).err =
            (processRows loadOk table f nb ⟨st.total_rows + 1, st.prices ++ [r.price]⟩
              (trf + 1) rs).err := by
          rw [hstep]
        have hSt : (processRows loadOk table f nb st trf (r :: rs)).st =
            (processRows loadOk table f nb ⟨st.total_rows + 1, st.prices ++ [r.price]⟩
              (trf + 1) rs).st := by
          rw [hstep]
        have hm : metricsStats
            [Event.insert table (valuesToInsert r),
             Event.metrics ⟨f, nb, trf + 1, r.price, st.total_rows + 1,
               ((st.prices ++ [r.price]).filterMap id).length,
               ((st.prices ++ [r.price]).filterMap id).sum,
               ((st.prices ++ [r.price]).filterMap id).sum /
                 (((st.prices ++ [r.price]).filterMap id).length : ℚ),
               pyMin ((st.prices ++ [r.price]).filterMap id),
               pyMax ((st.prices ++ [r.price]).filterMap id)⟩] =
            [statRecOf (st.prices ++ [r.price]) r.price] := by
          simp [metricsStats, statView, statRecOf]
        refine ⟨r.price :: ps', ?_, ?_, ?_⟩
        · rw [hE, metricsStats_append, hm, h1]
          simp [statsTrace]
        · intro s hs
          rw [hE, metricsStats_append, hm] at hs
          rcases List.mem_append.mp hs with hs | hs
          · rw [List.mem_singleton] at hs
            subst hs
            have : 0 < ((st.prices ++ [r.price]).filterMap id).length :=
              List.length_pos.mpr hv
            simpa [statRecOf] using this
          · exact h2 s hs
        · intro herr
          rw [hErr] at herr
          obtain ⟨hps, hpr⟩ := h3 herr
          constructor
          · simp [hps]
          · rw [hSt, hpr, hps]
            simp

theorem processChunks_metrics_shape (loadOk : ℕ → Bool) (table f : String) (now : ℕ) :
    ∀ (chunks : List (List RawRow)) (st : DriverState) (trf nb : ℕ),
      ∃ ps : List (Option ℚ),
        metricsStats (processChunks loadOk table f now st trf nb chunks).events =
          statsTrace st.prices ps ∧
        (∀ s ∈ metricsStats (processChunks loadOk table f now st trf nb chunks).events,
          0 < s.count) ∧
        ((processChunks loadOk table f now st trf nb chunks).err = none →
          (processChunks loadOk table f now st trf nb chunks).st.prices =
            st.prices ++ ps) := by
  intro chunks
  induction chunks with
  | nil =>
    intro st trf nb
    refine ⟨[], ?_, ?_, ?_⟩ <;> simp [processChunks, metricsStats, statsTrace]
  | cons c cs ih =>
    intro st trf nb
    cases hconv : convert_to_date (add_processed_date now c) with
    | error e =>
      refine ⟨[], ?_, ?_, ?_⟩ <;>
        simp [processChunks, hconv, metricsStats, statsTrace]
    | ok dated =>
      obtain ⟨ps₁, h1, h2, h3⟩ := processRows_metrics_shape loadOk table f nb
        (dated.map add_date_partition) st trf
      cases hre : (processRows loadOk table f nb st trf (dated.map add_date_partition)).err with
      | some e =>
        have hstep : processChunks loadOk table f now st trf nb (c :: cs) =
            processRows loadOk table f nb st trf (dated.map add_date_partition) := by
          simp [processChunks, hconv, hre]
        refine ⟨ps₁, ?_, ?_, ?_⟩
        · rw [hstep, h1]
        · intro s hs; rw [hstep] at hs; exact h2 s hs
        · intro herr; rw [hstep, hre] at herr; cases herr
      | none =>
        obtain ⟨hps₁, hpr₁⟩ := h3 hre
        obtain ⟨ps₂, g1, g2, g3⟩ := ih
          (processRows loadOk table f nb st trf (dated.map add_date_partition)).st
          (processRows loadOk table f nb st trf (dated.map add_date_partition)).trf
          (nb + 1)
        have hstep : processChunks loadOk table f now st trf nb (c :: cs) =
            ⟨(processChunks loadOk table f now
                (processRows loadOk table f nb st trf (dated.map add_date_partition)).st
                (processRows loadOk table f nb st trf (dated.map add_date_partition)).trf
                (nb + 1) cs).st,
             (processChunks loadOk table f now
                (processRows loadOk table f nb st trf (dated.map add_date_partition)).st
                (processRows loadOk table f nb st trf (dated.map add_date_partition)).trf
                (nb + 1) cs).trf,
             (processRows loadOk table f nb st trf (dated.map add_date_partition)).events ++
               (processChunks loadOk table f now
                (processRows loadOk table f nb st trf (dated.map add_date_partition)).st
                (processRows loadOk table f nb st trf (dated.map add_date_partition)).trf
                (nb + 1) cs).events,
             (processChunks loadOk table f now
                (processRows loadOk table f nb st trf (dated.map add_date_partition)).st
                (processRows loadOk table f nb st trf (dated.map add_date_partition)).trf
                (nb + 1) cs).err⟩ := by
          simp [processChunks, hconv, hre]
        have hE : (processChunks loadOk table f now st trf nb (c :: cs)).events =
            (processRows loadOk table f nb st trf (dated.map add_date_partition)).events ++
              (processChunks loadOk table f now
                (processRows loadOk table f nb st trf (dated.map add_date_partition)).st
                (processRows loadOk table f nb st trf (dated.map add_date_partition)).trf
                (nb + 1) cs).events := by
          rw [hstep]
        have hErr : (processChunks loadOk table f now st trf nb (c :: cs)).err =
            (processChunks loadOk table f now
                (processRows loadOk table f nb st trf (dated.map add_date_partition)).st
                (processRows loadOk table f nb st trf (dated.map add_date_partition)).trf
                (nb + 1) cs).err := by
          rw [hstep]
        have hSt : (processChunks loadOk table f now st trf nb (c :: cs)).st =
            (processChunks loadOk table f now
                (processRows loadOk table f nb st trf (dated.map add_date_partition)).st
                (processRows loadOk table f nb st trf (dated.map add_date_partition)).trf
                (nb + 1) cs).st := by
          rw [hstep]
        refine ⟨ps₁ ++ ps₂, ?_, ?_, ?_⟩
        · rw [hE, metricsStats_append, h1, statsTrace_append]
          rw [hpr₁] at g1
          rw [g1]
        · intro s hs
          rw [hE, metricsStats_append] at hs
          rcases List.mem_append.mp hs with hs | hs
          · exact h2 s hs
          · exact g2 s hs
        · intro herr
          rw [hErr] at herr
          have := g3 herr
          rw [hSt, this, hpr₁, List.append_assoc]

theorem processFiles_metrics_shape (loadOk : ℕ → Bool) (table : String)
    (chunk_size now : ℕ) :
    ∀ (files : List (String × List RawRow)) (st : DriverState),
      ∃ ps : List (Option ℚ),
        metricsStats (processFiles loadOk table chunk_size now st files).events =
          statsTrace st.prices ps ∧
        (∀ s ∈ metricsStats (processFiles loadOk table chunk_size now st files).events,
          0 < s.count) := by
  intro files
  induction files with
  | nil =>
    intro st
    refine ⟨[], ?_, ?_⟩ <;> simp [processFiles, metricsStats, statsTrace]
  | cons fc fcs ih =>
    intro st
    cases hmb : micro_batches_generator chunk_size fc.2 with
    | error e =>
      refine ⟨[], ?_, ?_⟩ <;>
        simp [processFiles, hmb, metricsStats, statsTrace]
    | ok chunks =>
      obtain ⟨ps₁, h1, h2, h3⟩ :=
        processChunks_metrics_shape loadOk table fc.1 now chunks st 0 1
      cases hre : (processChunks loadOk table fc.1 now st 0 1 chunks).err with
      | some e =>
        have hstep : processFiles loadOk table chunk_size now st (fc :: fcs) =
            processChunks loadOk table fc.1 now st 0 1 chunks := by
          simp [processFiles, hmb, hre]
        refine ⟨ps₁, ?_, ?_⟩
        · rw [hstep, h1]
        · intro s hs; rw [hstep] at hs; exact h2 s hs
      | none =>
        have hpr₁ := h3 hre
        obtain ⟨ps₂, g1, g2⟩ := ih (processChunks loadOk table fc.1 now st 0 1 chunks).st
        have hstep : processFiles loadOk table chunk_size now st (fc :: fcs) =
            ⟨(processFiles loadOk table chunk_size now
                (processChunks loadOk table fc.1 now st 0 1 chunks).st fcs).st,
             (processFiles loadOk table chunk_size now
                (processChunks loadOk table fc.1 now st 0 1 chunks).st fcs).trf,
             (processChunks loadOk table fc.1 now st 0 1 chunks).events ++
               (processFiles loadOk table chunk_size now
                (processChunks loadOk table fc.1 now st 0 1 chunks).st fcs).events,
             (processFiles loadOk table chunk_size now
                (processChunks loadOk table fc.1 now st 0 1 chunks).st fcs).err⟩ := by
          simp [processFiles, hmb, hre]
        have hE : (processFiles loadOk table chunk_size now st (fc :: fcs)).events =
            (processChunks loadOk table fc.1 now st 0 1 chunks).events ++
              (processFiles loadOk table chunk_size now
                (processChunks loadOk table fc.1 now st 0 1 chunks).st fcs).events := by
          rw [hstep]
        refine ⟨ps₁ ++ ps₂, ?_, ?_⟩
        · rw [hE, metricsStats_append, h1, statsTrace_append]
          rw [hpr₁] at g1
          rw [g1]
        · intro s hs
          rw [hE, metricsStats_append] at hs
          rcases List.mem_append.mp hs with hs | hs
          · exact h2 s hs
          · exact g2 s hs

theorem run_metrics_shape (loadOk : ℕ → Bool) (table : String)
    (chunk_size now : ℕ) (files : List (String × List RawRow)) :
    ∃ ps : List (Option ℚ),
      metricsStats (run_data_pipeline loadOk table chunk_size now files).events =
        statsTrace [] ps ∧
      (∀ s ∈ metricsStats (run_data_pipeline loadOk table chunk_size now files).events,
        0 < s.count) := by
  obtain ⟨ps, h1, h2⟩ := processFiles_metrics_shape loadOk table chunk_size now files ⟨0, []⟩
  exact ⟨ps, h1, h2⟩

theorem statsTrace_chain (ps : List (Option ℚ))
    (hc : ∀ s ∈ statsTrace [] ps, 0 < s.count) :
    List.Chain' (fun a b : StatRec => a.count ≤ b.count ∧ b.min ≤ a.min ∧ a.max ≤ b.max)
      (statsTrace [] ps) := by
  rw [List.chain'_iff_get]
  intro j hj
  have hlen : (statsTrace [] ps).length = ps.length := length_statsTrace ps []
  have hj1 : j < ps.length := by omega
  have hj2 : j + 1 < ps.length := by omega
  have hg1 : (statsTrace [] ps).get? j =
      some ((statsTrace [] ps).get ⟨j, by omega⟩) := List.get?_eq_get _
  have hg2 : (statsTrace [] ps).get? (j + 1) =
      some ((statsTrace [] ps).get ⟨j + 1, by omega⟩) := List.get?_eq_get _
  rw [statsTrace_get? ps [] j] at hg1
  rw [statsTrace_get? ps [] (j + 1)] at hg2
  have hp1 : ps.get? j = some (ps.get ⟨j, hj1⟩) := List.get?_eq_get hj1
  have hp2 : ps.get? (j + 1) = some (ps.get ⟨j + 1, hj2⟩) := List.get?_eq_get hj2
  rw [hp1] at hg1
  rw [hp2] at hg2
  simp only [Option.map_some', Option.some_inj, List.nil_append] at hg1 hg2
  rw [← hg1, ← hg2]
  have hmem : (statsTrace [] ps).get ⟨j, by omega⟩ ∈ statsTrace [] ps :=
    List.get_mem _ _ _
  have hcount : 0 < ((statsTrace [] ps).get ⟨j, by omega⟩).count := hc _ hmem
  rw [← hg1] at hcount
  have hvne : (ps.take (j + 1)).filterMap id ≠ [] := by
    intro hnil
    rw [statRecOf] at hcount
    simp only [hnil, List.length_nil] at hcount
    omega
  have htake : ps.take (j + 1 + 1) = ps.take (j + 1) ++ (ps.get? (j + 1)).toList := by
    rw [List.take_succ]
    rw [List.get?_eq_getElem?]
  rw [hp2] at htake
  cases hpv : ps.get ⟨j + 1, hj2⟩ with
  | none =>
    rw [hpv] at htake
    simp only [Option.toList_some] at htake
    have : (ps.take (j + 1 + 1)).filterMap id = (ps.take (j + 1)).filterMap id := by
      rw [htake, filterMap_append_none]
    refine ⟨?_, ?_, ?_⟩ <;> simp [statRecOf, this]
  | some a =>
    rw [hpv] at htake
    simp only [Option.toList_some] at htake
    have hvv : (ps.take (j + 1 + 1)).filterMap id =
        (ps.take (j + 1)).filterMap id ++ [a] := by
      rw [htake, filterMap_append_some]
    refine ⟨?_, ?_, ?_⟩
    · simp [statRecOf, hvv]
    · simp only [statRecOf, hvv]
      rw [pyMin_append_singleton _ a hvne]
      exact min_le_left _ _
    · simp only [statRecOf, hvv]
      rw [pyMax_append_singleton _ a hvne]
      exact le_max_left _ _

/-- C5: at every row processed during a run, the count of values used to
compute the average (`count`, the divisor `len(valid_values)` of the
metrics record) equals the count of non-null prices seen so far across all
files and batches, and the running statistics are never reset mid-run:
from each processed row to the next, `count` is non-decreasing, `min` is
non-increasing, and `max` is non-decreasing. -/
theorem running_stats_invariant (loadOk : ℕ → Bool) (table : String)
    (chunk_size now : ℕ) (files : List (String × List RawRow)) (i : ℕ) (s : StatRec)
    (hs : (metricsStats (run_data_pipeline loadOk table chunk_size now files).events).get? i =
      some s) :
    s.count =
      ((((metricsStats (run_data_pipeline loadOk table chunk_size now files).events).take
          (i + 1)).map StatRec.rowPrice).filterMap id).length ∧
    s.avg = s.sum / (s.count : ℚ) ∧
    List.Chain' (fun a b : StatRec => a.count ≤ b.count ∧ b.min ≤ a.min ∧ a.max ≤ b.max)
      (metricsStats (run_data_pipeline loadOk table chunk_size now files).events) := by
  obtain ⟨ps, hms, hc⟩ := run_metrics_shape loadOk table chunk_size now files
  rw [hms] at hs ⊢
  rw [statsTrace_get? ps [] i] at hs
  rcases hop : ps.get? i with _ | p
  · rw [hop] at hs; cases hs
  · rw [hop] at hs
    simp only [Option.map_some', Option.some_inj, List.nil_append] at hs
    subst hs
    refine ⟨?_, ?_, ?_⟩
    · rw [List.map_take, statsTrace_map_rowPrice]
      simp [statRecOf]
    · simp [statRecOf]
    · rw [hms] at hc
      exact statsTrace_chain ps hc

/-- C4: after the Pipeline Driver processes rows whose prices are
[10, null, 30, null, 20] (in one file, chunk size 2), the per-row metrics
are exactly the five records below: the final statistics are count=3,
sum=60, avg=20, min=10, max=30; the 3rd, 4th and 5th records each equal
the statistics of the corresponding non-null prefix (via `statRecOf`), and
the 4th is unchanged from the 3rd except for the row's own price. -/
theorem stats_example_run :
    metricsStats (run_data_pipeline (fun _ => true) "t" 2 0 [("f", exampleRows)]).events =
      [⟨some 10, 1, 10, 10, 10, 10⟩, ⟨none, 1, 10, 10, 10, 10⟩,
       ⟨some 30, 2, 40, 20, 10, 30⟩, ⟨none, 2, 40, 20, 10, 30⟩,
       ⟨some 20, 3, 60, 20, 10, 30⟩] ∧
    (run_data_pipeline (fun _ => true) "t" 2 0 [("f", exampleRows)]).err = none ∧
    statRecOf [some 10, none, some 30] (some 30) = ⟨some 30, 2, 40, 20, 10, 30⟩ ∧
    statRecOf [some 10, none, some 30, none] none = ⟨none, 2, 40, 20, 10, 30⟩ ∧
    statRecOf [some 10, none, some 30, none, some 20] (some 20) =
      ⟨some 20, 3, 60, 20, 10, 30⟩ := by
  refine ⟨?_, ?_, ?_, ?_, ?_⟩ <;> with_unfolding_all rfl

/-- C1 counterexample: a null-price row processed when no non-null price
has been seen before it is not inserted with a null price — the run aborts
with a `ZeroDivisionError` (the average over an empty `valid_values`)
before `load_row` is reached, and no insert happens. -/
theorem nullprice_first_row_crashes :
    run_data_pipeline (fun _ => true) "t" 1 0 [("f", [⟨"01/01/2023", none, 1⟩])] =
      ⟨⟨1, [none]⟩, 1, [], some PipelineError.ZeroDivisionError⟩ ∧
    insertsOf (run_data_pipeline (fun _ => true) "t" 1 0
      [("f", [⟨"01/01/2023", none, 1⟩])]).events = [] := by
  refine ⟨?_, ?_⟩ <;> with_unfolding_all rfl

/-- C1 (amended): a row with missing price, processed at any position at
which at least one non-null price has already been seen, is inserted with
a null in the price column and leaves the running sum, average, min and
max unchanged (the emitted statistics are those of the previous history
`st.prices`). -/
theorem nullprice_row_inserted_stats_unchanged (loadOk : ℕ → Bool)
    (table f : String) (nb : ℕ) (st : DriverState) (trf : ℕ) (r : TRow)
    (hp : r.price = none)
    (hv : st.prices.filterMap id ≠ [])
    (hld : loadOk (st.total_rows + 1) = true) :
    processRow loadOk table f nb st trf r =
      ⟨⟨st.total_rows + 1, st.prices ++ [none]⟩, trf + 1,
       [Event.insert table (valuesToInsert r),
        Event.metrics ⟨f, nb, trf + 1, none, st.total_rows + 1,
          (st.prices.filterMap id).length, (st.prices.filterMap id).sum,
          (st.prices.filterMap id).sum / ((st.prices.filterMap id).length : ℚ),
          pyMin (st.prices.filterMap id), pyMax (st.prices.filterMap id)⟩], none⟩ ∧
    (valuesToInsert r).price = none := by
  have hcollapse : (st.prices ++ [r.price]).filterMap id = st.prices.filterMap id := by
    rw [hp, filterMap_append_none]
  have hv' : (st.prices ++ [r.price]).filterMap id ≠ [] := by
    rw [hcollapse]; exact hv
  have hrow := processRow_ok loadOk table f nb st trf r hv' hld
  rw [hcollapse, hp] at hrow
  refine ⟨hrow, ?_⟩
  simp [valuesToInsert, hp]

/-- Witness for the amended C1 theorem at a concrete state: history
[some 5], null-price row, accepting loader. -/
theorem nullprice_row_inserted_stats_unchanged_witness :
    processRow (fun _ => true) "t" "f" 1 ⟨1, [some 5]⟩ 3
      ⟨⟨2023, 1, 1⟩, 1, 1, 2023, none, 7, 0⟩ =
      ⟨⟨2, [some 5, none]⟩, 4,
       [Event.insert "t" (valuesToInsert ⟨⟨2023, 1, 1⟩, 1, 1, 2023, none, 7, 0⟩),
        Event.metrics ⟨"f", 1, 4, none, 2, 1, 5, 5, 5, 5⟩], none⟩ ∧
    (valuesToInsert ⟨⟨2023, 1, 1⟩, 1, 1, 2023, none, 7, 0⟩).price = none := by
  have h := nullprice_row_inserted_stats_unchanged (fun _ => true) "t" "f" 1
    ⟨1, [some 5]⟩ 3 ⟨⟨2023, 1, 1⟩, 1, 1, 2023, none, 7, 0⟩ rfl (by decide) rfl
  refine ⟨?_, h.2⟩
  rw [h.1]
  with_unfolding_all rfl

/-- Witness for C5 at a concrete run: the first metrics record of the
example run satisfies the invariant. -/
theorem running_stats_invariant_witness :
    (⟨some 10, 1, 10, 10, 10, 10⟩ : StatRec).count =
      ((((metricsStats (run_data_pipeline (fun _ => true) "t" 2 0
        [("f", exampleRows)]).events).take (0 + 1)).map StatRec.rowPrice).filterMap
          id).length ∧
    (⟨some 10, 1, 10, 10, 10, 10⟩ : StatRec).avg =
      (⟨some 10, 1, 10, 10, 10, 10⟩ : StatRec).sum /
        (((⟨some 10, 1, 10, 10, 10, 10⟩ : StatRec).count : ℕ) : ℚ) ∧
    List.Chain' (fun a b : StatRec => a.count ≤ b.count ∧ b.min ≤ a.min ∧ a.max ≤ b.max)
      (metricsStats (run_data_pipeline (fun _ => true) "t" 2 0 [("f", exampleRows)]).events) :=
  running_stats_invariant (fun _ => true) "t" 2 0 [("f", exampleRows)] 0
    ⟨some 10, 1, 10, 10, 10, 10⟩ (by with_unfolding_all rfl)

/-- C2: for every file and every chunk size at least 1, the Chunk Reader
produces a finite sequence of batches, each of at most `chunk_size` rows,
and concatenating all batches reproduces exactly the file's rows in their
original order, with no duplication or loss. -/
theorem micro_batches_concat_exact (chunk_size : ℕ) (contents : List RawRow)
    (hcs : 1 ≤ chunk_size) :
    micro_batches_generator chunk_size contents = Except.ok (chunksOf chunk_size contents) ∧
    (chunksOf chunk_size contents).flatten = contents ∧
    ∀ b ∈ chunksOf chunk_size contents, b.length ≤ chunk_size := by
  refine ⟨?_, chunksOf_flatten chunk_size contents, chunksOf_length_le chunk_size hcs contents⟩
  have : chunk_size ≠ 0 := by omega
  simp [micro_batches_generator, this]

/-- Witness for C2 at chunk size 2 over a 5-row file. -/
theorem micro_batches_concat_exact_witness :
    1 ≤ 2 ∧
    (micro_batches_generator 2 exampleRows = Except.ok (chunksOf 2 exampleRows) ∧
     (chunksOf 2 exampleRows).flatten = exampleRows ∧
     ∀ b ∈ chunksOf 2 exampleRows, b.length ≤ 2) :=
  ⟨by decide, micro_batches_concat_exact 2 exampleRows (by decide)⟩

/-- C3: with both `exclude_validation` and `only_validation` set, the File
Selector always produces the `ConfigurationError` (the code's `ValueError`
for mutually exclusive flags) when its output is consumed, for any
directory listing, and no file path is produced. -/
theorem both_flags_configuration_error (listing : List String) :
    (get_data_files true true listing).body.yielded = [] ∧
    (get_data_files true true listing).body.error =
      some PipelineError.ConfigurationError := by
  constructor <;> simp [get_data_files, get_data_files_body]

/-- C9: calling `get_data_files` with both flags set returns normally — it
constructs a generator object without running the body — and the
mutually-exclusive-flags error is raised only at the first iteration of
the returned sequence, which yields no path. -/
theorem generator_call_defers_error (listing : List String) :
    ∃ g : PyGen String, get_data_files true true listing = g ∧
      g.firstNext = Except.error PipelineError.ConfigurationError ∧
      g.body.yielded = [] := by
  refine ⟨get_data_files true true listing, rfl, ?_, ?_⟩ <;>
    simp [get_data_files, get_data_files_body, PyGen.firstNext]

/-- C7: parsing "02/29/2024" (a leap day) succeeds, Derive partitions
yields day=29, month=2, year=2024 for that row, parsing "02/30/2024"
raises a `ParseError`, and a batch containing the bad timestamp fails as a
whole (fail-fast): `convert_to_date` yields no rows for it. -/
theorem leap_day_parse_and_partition :
    strptime_mdY "02/29/2024" = Except.ok ⟨2024, 2, 29⟩ ∧
    add_date_partition ⟨⟨2024, 2, 29⟩, some 1, 7, 0⟩ =
      ⟨⟨2024, 2, 29⟩, 29, 2, 2024, some 1, 7, 0⟩ ∧
    strptime_mdY "02/30/2024" = Except.error PipelineError.ParseError ∧
    convert_to_date (add_processed_date 0
      [⟨"02/29/2024", some 1, 7⟩, ⟨"02/30/2024", some 2, 8⟩]) =
      Except.error PipelineError.ParseError := by
  refine ⟨?_, ?_, ?_, ?_⟩ <;> with_unfolding_all rfl

/-- C6 counterexample: the timestamp "01/02/2023" parses to the date with
month=1, day=2 (format `%m/%d/%Y`), not to the day=1, month=2 date the
day-first reading requires. -/
theorem timestamp_not_day_first :
    strptime_mdY "01/02/2023" = Except.ok ⟨2023, 1, 2⟩ ∧
    ¬ strptime_mdY "01/02/2023" = Except.ok ⟨2023, 2, 1⟩ := by
  constructor
  · with_unfolding_all rfl
  · intro h
    have h1 : strptime_mdY "01/02/2023" = Except.ok ⟨2023, 1, 2⟩ := by
      with_unfolding_all rfl
    rw [h1] at h
    injection h with h
    simp at h

/-- C6 (amended): whenever the Parse timestamp operation accepts a raw
timestamp string, it has interpreted it as month/day/year with slash
separators: the first slash-separated field is the month, the second the
day of month, the third the year. -/
theorem strptime_month_first (s : String) (d : Date)
    (h : strptime_mdY s = Except.ok d) :
    ∃ ms ds ys, s.splitOn "/" = [ms, ds, ys] ∧
      ms.toNat? = some d.month ∧ ds.toNat? = some d.day ∧ ys.toNat? = some d.year := by
  unfold strptime_mdY at h
  split at h
  · next ms ds ys heq =>
    split at h
    · next m dd y hm hd hy =>
      split at h
      · injection h with h
        subst h
        exact ⟨ms, ds, ys, heq, hm, hd, hy⟩
      · simp at h
    · simp at h
  · simp at h

/-- Witness for the amended C6 theorem at the leap-day timestamp. -/
theorem strptime_month_first_witness :
    strptime_mdY "02/29/2024" = Except.ok ⟨2024, 2, 29⟩ ∧
    ∃ ms ds ys, "02/29/2024".splitOn "/" = [ms, ds, ys] ∧
      ms.toNat? = some (⟨2024, 2, 29⟩ : Date).month ∧
      ds.toNat? = some (⟨2024, 2, 29⟩ : Date).day ∧
      ys.toNat? = some (⟨2024, 2, 29⟩ : Date).year :=
  ⟨by with_unfolding_all rfl,
   strptime_month_first "02/29/2024" ⟨2024, 2, 29⟩ (by with_unfolding_all rfl)⟩

theorem transformRowTotal_price (now : ℕ) (r : RawRow) :
    (transformRowTotal now r).price = r.price := by
  unfold transformRowTotal
  split <;> rfl

theorem convert_to_date_ok (now : ℕ) :
    ∀ (c : List RawRow), (∀ r ∈ c, (strptime_mdY r.timestamp).isOk = true) →
      ∃ dated, convert_to_date (add_processed_date now c) = Except.ok dated ∧
        dated.map add_date_partition = c.map (transformRowTotal now) := by
  intro c
  induction c with
  | nil => intro _; exact ⟨[], rfl, rfl⟩
  | cons r c ih =>
    intro hall
    have hr : (strptime_mdY r.timestamp).isOk = true := hall r (List.mem_cons_self r c)
    obtain ⟨d, hd⟩ : ∃ d, strptime_mdY r.timestamp = Except.ok d := by
      cases hsp : strptime_mdY r.timestamp with
      | ok d => exact ⟨d, rfl⟩
      | error e => rw [hsp] at hr; simp [Except.isOk, Except.toBool] at hr
    obtain ⟨ds, hds, hmap⟩ := ih (fun x hx => hall x (List.mem_cons_of_mem r hx))
    simp only [add_processed_date, List.map_cons] at hds ⊢
    refine ⟨⟨d, r.price, r.user_id, now⟩ :: ds, ?_, ?_⟩
    · simp only [convert_to_date, hd, hds]
    · simp only [List.map_cons, hmap]
      congr 1
      unfold transformRowTotal add_date_partition
      rw [hd]

theorem processRows_cons_ok (loadOk : ℕ → Bool) (table f : String) (nb : ℕ)
    (st : DriverState) (trf : ℕ) (r : TRow) (rs : List TRow)
    (st' : DriverState) (trf' : ℕ) (evs : List Event)
    (hrow : processRow loadOk table f nb st trf r = ⟨st', trf', evs, none⟩) :
    processRows loadOk table f nb st trf (r :: rs) =
      ⟨(processRows loadOk table f nb st' trf' rs).st,
       (processRows loadOk table f nb st' trf' rs).trf,
       evs ++ (processRows loadOk table f nb st' trf' rs).events,
       (processRows loadOk table f nb st' trf' rs).err⟩ := by
  simp [processRows, hrow]

theorem processRows_cons_err (loadOk : ℕ → Bool) (table f : String) (nb : ℕ)
    (st : DriverState) (trf : ℕ) (r : TRow) (rs : List TRow)
    (st' : DriverState) (trf' : ℕ) (evs : List Event) (e : PipelineError)
    (hrow : processRow loadOk table f nb st trf r = ⟨st', trf', evs, some e⟩) :
    processRows loadOk table f nb st trf (r :: rs) = ⟨st', trf', evs, some e⟩ := by
  simp [processRows, hrow]

theorem valid_append_ne_nil (h l : List (Option ℚ)) (hv : h.filterMap id ≠ []) :
    (h ++ l).filterMap id ≠ [] := by
  rw [List.filterMap_append]
  intro hc
  exact hv (List.append_eq_nil.mp hc).1

theorem nic_head (h : List (Option ℚ)) (p : Option ℚ) (ps : List (Option ℚ))
    (hn : noInitialCrash h (p :: ps)) : (h ++ [p]).filterMap id ≠ [] := by
  rcases hn with hv | hp
  · exact valid_append_ne_nil h [p] hv
  · have hne : p ≠ none := hp p rfl
    obtain ⟨a, ha⟩ := Option.ne_none_iff_exists'.mp hne
    subst ha
    rw [filterMap_append_some]
    simp

theorem nic_tail (h : List (Option ℚ)) (p : Option ℚ) (ps : List (Option ℚ))
    (hn : noInitialCrash h (p :: ps)) : noInitialCrash (h ++ [p]) ps :=
  Or.inl (nic_head h p ps hn)

theorem nic_split_left (h a b : List (Option ℚ))
    (hn : noInitialCrash h (a ++ b)) : noInitialCrash h a := by
  rcases hn with hv | hp
  · exact Or.inl hv
  · refine Or.inr ?_
    intro p hpa
    cases a with
    | nil => simp at hpa
    | cons q qs =>
      have hq : q = p := by simpa using hpa
      exact hq ▸ hp q (by simp)

theorem nic_split_right (h a b : List (Option ℚ))
    (hn : noInitialCrash h (a ++ b)) : noInitialCrash (h ++ a) b := by
  cases a with
  | nil => simpa using hn
  | cons q qs =>
    left
    have h1 : (h ++ [q]).filterMap id ≠ [] :=
      nic_head h q (qs ++ b) (by simpa using hn)
    have h2 := valid_append_ne_nil (h ++ [q]) qs h1
    simpa [List.append_assoc] using h2

theorem processRows_before_fail (table f : String) (nb k : ℕ) :
    ∀ (rows : List TRow) (tr : ℕ) (hist : List (Option ℚ)) (trf : ℕ),
      noInitialCrash hist (rows.map TRow.price) →
      tr + rows.length < k →
      (processRows (failAt k) table f nb ⟨tr, hist⟩ trf rows).err = none ∧
      (processRows (failAt k) table f nb ⟨tr, hist⟩ trf rows).st =
        ⟨tr + rows.length, hist ++ rows.map TRow.price⟩ ∧
      (processRows (failAt k) table f nb ⟨tr, hist⟩ trf rows).trf = trf + rows.length ∧
      insertsOf (processRows (failAt k) table f nb ⟨tr, hist⟩ trf rows).events =
        rows.map valuesToInsert ∧
      (metricsStats (processRows (failAt k) table f nb ⟨tr, hist⟩ trf rows).events).length =
        rows.length := by
  intro rows
  induction rows with
  | nil =>
    intro tr hist trf _ _
    refine ⟨rfl, ?_, rfl, rfl, rfl⟩
    simp [processRows]
  | cons r rs ih =>
    intro tr hist trf hnic hlt
    simp only [List.map_cons] at hnic
    simp only [List.length_cons] at hlt
    have hvne : (hist ++ [r.price]).filterMap id ≠ [] := nic_head _ _ _ hnic
    have hld : failAt k (tr + 1) = true := by
      simp only [failAt, decide_eq_true_eq]
      omega
    have hrow := processRow_ok (failAt k) table f nb ⟨tr, hist⟩ trf r hvne hld
    have hstep := processRows_cons_ok (failAt k) table f nb ⟨tr, hist⟩ trf r rs
      ⟨tr + 1, hist ++ [r.price]⟩ (trf + 1) _ hrow
    obtain ⟨ih1, ih2, ih3, ih4, ih5⟩ :=
      ih (tr + 1) (hist ++ [r.price]) (trf + 1) (nic_tail _ _ _ hnic) (by omega)
    refine ⟨?_, ?_, ?_, ?_, ?_⟩
    · rw [hstep]; exact ih1
    · rw [hstep, ih2]
      simp [List.append_assoc]
      omega
    · rw [hstep, ih3]
      simp only [List.length_cons]
      omega
    · rw [hstep, insertsOf_append, ih4]
      simp [insertsOf]
    · rw [hstep, metricsStats_append, List.length_append, ih5]
      simp only [List.length_cons]
      have hone : (metricsStats [Event.insert table (valuesToInsert r),
          Event.metrics ⟨f, nb, trf + 1, r.price, tr + 1,
            ((hist ++ [r.price]).filterMap id).length,
            ((hist ++ [r.price]).filterMap id).sum,
            ((hist ++ [r.price]).filterMap id).sum /
              (((hist ++ [r.price]).filterMap id).length : ℚ),
            pyMin ((hist ++ [r.price]).filterMap id),
            pyMax ((hist ++ [r.price]).filterMap id)⟩]).length = 1 := by
        simp [metricsStats]
      rw [hone]
      omega

theorem processRows_at_fail (table f : String) (nb k : ℕ) :
    ∀ (rows : List TRow) (tr : ℕ) (hist : List (Option ℚ)) (trf : ℕ),
      noInitialCrash hist (rows.map TRow.price) →
      tr < k →
      k ≤ tr + rows.length →
      (processRows (failAt k) table f nb ⟨tr, hist⟩ trf rows).err =
        some PipelineError.PersistenceError ∧
      (processRows (failAt k) table f nb ⟨tr, hist⟩ trf rows).st =
        ⟨k, hist ++ (rows.map TRow.price).take (k - tr)⟩ ∧
      (processRows (failAt k) table f nb ⟨tr, hist⟩ trf rows).trf = trf + (k - tr) ∧
      insertsOf (processRows (failAt k) table f nb ⟨tr, hist⟩ trf rows).events =
        (rows.take (k - tr - 1)).map valuesToInsert ∧
      (metricsStats (processRows (failAt k) table f nb ⟨tr, hist⟩ trf rows).events).length =
        k - tr - 1 := by
  intro rows
  induction rows with
  | nil =>
    intro tr hist trf _ h1 h2
    simp only [List.length_nil, Nat.add_zero] at h2
    omega
  | cons r rs ih =>
    intro tr hist trf hnic hk1 hk2
    simp only [List.map_cons] at hnic
    simp only [List.length_cons] at hk2
    have hvne : (hist ++ [r.price]).filterMap id ≠ [] := nic_head _ _ _ hnic
    by_cases hke : k = tr + 1
    · have hld : failAt k (tr + 1) = false := by
        simp [failAt, hke]
      have hrow := processRow_loadfail (failAt k) table f nb ⟨tr, hist⟩ trf r hvne hld
      have hstep := processRows_cons_err (failAt k) table f nb ⟨tr, hist⟩ trf r rs
        ⟨tr + 1, hist ++ [r.price]⟩ (trf + 1) []
        PipelineError.PersistenceError hrow
      have hkt : k - tr = 1 := by omega
      refine ⟨?_, ?_, ?_, ?_, ?_⟩
      · rw [hstep]
      · rw [hstep, hkt]
        simp [hke]
      · rw [hstep, hkt]
      · rw [hstep, hkt]
        simp [insertsOf]
      · rw [hstep, hkt]
        simp [metricsStats]
    · have hld : failAt k (tr + 1) = true := by
        simp only [failAt, decide_eq_true_eq]
        omega
      have hrow := processRow_ok (failAt k) table f nb ⟨tr, hist⟩ trf r hvne hld
      have hstep := processRows_cons_ok (failAt k) table f nb ⟨tr, hist⟩ trf r rs
        ⟨tr + 1, hist ++ [r.price]⟩ (trf + 1) _ hrow
      obtain ⟨ih1, ih2, ih3, ih4, ih5⟩ :=
        ih (tr + 1) (hist ++ [r.price]) (trf + 1) (nic_tail _ _ _ hnic)
          (by omega) (by omega)
      refine ⟨?_, ?_, ?_, ?_, ?_⟩
      · rw [hstep]; exact ih1
      · rw [hstep, ih2]
        have hsp : (hist ++ [r.price]) ++
            (rs.map TRow.price).take (k - (tr + 1)) =
            hist ++ ((r.price :: rs.map TRow.price).take (k - tr)) := by
          rw [List.append_assoc]
          congr 1
          have hsucc : k - tr = (k - (tr + 1)) + 1 := by omega
          rw [hsucc, List.take_succ_cons]
          rfl
        rw [hsp]
        simp
      · rw [hstep, ih3]
        omega
      · rw [hstep, insertsOf_append, ih4]
        have hone : insertsOf [Event.insert table (valuesToInsert r),
            Event.metrics ⟨f, nb, trf + 1, r.price, tr + 1,
              ((hist ++ [r.price]).filterMap id).length,
              ((hist ++ [r.price]).filterMap id).sum,
              ((hist ++ [r.price]).filterMap id).sum /
                (((hist ++ [r.price]).filterMap id).length : ℚ),
              pyMin ((hist ++ [r.price]).filterMap id),
              pyMax ((hist ++ [r.price]).filterMap id)⟩] =
            [valuesToInsert r] := by
          simp [insertsOf]
        rw [hone]
        have htk : k - tr - 1 = (k - (tr + 1) - 1) + 1 := by omega
        rw [htk, List.take_succ_cons]
        rfl
      · rw [hstep, metricsStats_append, List.length_append, ih5]
        have hone : (metricsStats [Event.insert table (valuesToInsert r),
            Event.metrics ⟨f, nb, trf + 1, r.price, tr + 1,
              ((hist ++ [r.price]).filterMap id).length,
              ((hist ++ [r.price]).filterMap id).sum,
              ((hist ++ [r.price]).filterMap id).sum /
                (((hist ++ [r.price]).filterMap id).length : ℚ),
              pyMin ((hist ++ [r.price]).filterMap id),
              pyMax ((hist ++ [r.price]).filterMap id)⟩]).length = 1 := by
          simp [metricsStats]
        rw [hone]
        omega

theorem map_price_transform (now : ℕ) (c : List RawRow) :
    (c.map (transformRowTotal now)).map TRow.price = c.map RawRow.price := by
  rw [List.map_map]
  exact List.map_congr_left (fun r _ => transformRowTotal_price now r)

theorem processChunks_before_fail (table f : String) (now k : ℕ) :
    ∀ (chunks : List (List RawRow)) (tr : ℕ) (hist : List (Option ℚ)) (trf nb : ℕ),
      (∀ c ∈ chunks, ∀ r ∈ c, (strptime_mdY r.timestamp).isOk = true) →
      noInitialCrash hist (chunks.flatten.map RawRow.price) →
      tr + chunks.flatten.length < k →
      (processChunks (failAt k) table f now ⟨tr, hist⟩ trf nb chunks).err = none ∧
      (processChunks (failAt k) table f now ⟨tr, hist⟩ trf nb chunks).st =
        ⟨tr + chunks.flatten.length, hist ++ chunks.flatten.map RawRow.price⟩ ∧
      (processChunks (failAt k) table f now ⟨tr, hist⟩ trf nb chunks).trf =
        trf + chunks.flatten.length ∧
      insertsOf (processChunks (failAt k) table f now ⟨tr, hist⟩ trf nb chunks).events =
        chunks.flatten.map (fun r => valuesToInsert (transformRowTotal now r)) ∧
      (metricsStats
        (processChunks (failAt k) table f now ⟨tr, hist⟩ trf nb chunks).events).length =
        chunks.flatten.length := by
  intro chunks
  induction chunks with
  | nil =>
    intro tr hist trf nb _ _ _
    refine ⟨rfl, ?_, rfl, rfl, rfl⟩
    simp [processChunks]
  | cons c cs ih =>
    intro tr hist trf nb hparse hnic hlt
    simp only [List.flatten_cons, List.map_append, List.length_append] at hnic hlt ⊢
    obtain ⟨dated, hconv, hmapTr⟩ := convert_to_date_ok now c
      (fun r hr => hparse c (List.mem_cons_self c cs) r hr)
    have hpr := map_price_transform now c
    have hlenr : (c.map (transformRowTotal now)).length = c.length := List.length_map c _
    obtain ⟨o1, o2, o3, o4, o5⟩ := processRows_before_fail table f nb k
      (c.map (transformRowTotal now)) tr hist trf
      (by rw [hpr]; exact nic_split_left _ _ _ hnic)
      (by rw [hlenr]; have := List.length_map c RawRow.price; omega)
    rw [hpr] at o2
    rw [hlenr] at o2 o3
    have hstep : processChunks (failAt k) table f now ⟨tr, hist⟩ trf nb (c :: cs) =
        ⟨(processChunks (failAt k) table f now ⟨tr + c.length, hist ++ c.map RawRow.price⟩
            (trf + c.length) (nb + 1) cs).st,
         (processChunks (failAt k) table f now ⟨tr + c.length, hist ++ c.map RawRow.price⟩
            (trf + c.length) (nb + 1) cs).trf,
         (processRows (failAt k) table f nb ⟨tr, hist⟩ trf
            (c.map (transformRowTotal now))).events ++
           (processChunks (failAt k) table f now ⟨tr + c.length, hist ++ c.map RawRow.price⟩
            (trf + c.length) (nb + 1) cs).events,
         (processChunks (failAt k) table f now ⟨tr + c.length, hist ++ c.map RawRow.price⟩
            (trf + c.length) (nb + 1) cs).err⟩ := by
      simp only [processChunks, hconv]
      rw [hmapTr, o1, o2, o3]
    obtain ⟨g1, g2, g3, g4, g5⟩ := ih (tr + c.length) (hist ++ c.map RawRow.price)
      (trf + c.length) (nb + 1)
      (fun c' hc' r hr => hparse c' (List.mem_cons_of_mem c hc') r hr)
      (nic_split_right _ _ _ hnic)
      (by have := List.length_map c RawRow.price
          have := List.length_map cs.flatten RawRow.price
          omega)
    refine ⟨?_, ?_, ?_, ?_, ?_⟩
    · rw [hstep]; exact g1
    · rw [hstep, g2]
      have h1 := List.length_map c RawRow.price
      have h2 := List.length_map cs.flatten RawRow.price
      simp [List.append_assoc]
      omega
    · rw [hstep, g3]
      have h1 := List.length_map c RawRow.price
      omega
    · rw [hstep, insertsOf_append, o4, g4, List.map_map]
      rfl
    · rw [hstep, metricsStats_append, List.length_append, o5, g5]
      rw [hlenr]

theorem processChunks_at_fail (table f : String) (now k : ℕ) :
    ∀ (chunks : List (List RawRow)) (tr : ℕ) (hist : List (Option ℚ)) (trf nb : ℕ),
      (∀ c ∈ chunks, ∀ r ∈ c, (strptime_mdY r.timestamp).isOk = true) →
      noInitialCrash hist (chunks.flatten.map RawRow.price) →
      tr < k →
      k ≤ tr + chunks.flatten.length →
      (processChunks (failAt k) table f now ⟨tr, hist⟩ trf nb chunks).err =
        some PipelineError.PersistenceError ∧
      (processChunks (failAt k) table f now ⟨tr, hist⟩ trf nb chunks).st =
        ⟨k, hist ++ (chunks.flatten.map RawRow.price).take (k - tr)⟩ ∧
      (processChunks (failAt k) table f now ⟨tr, hist⟩ trf nb chunks).trf =
        trf + (k - tr) ∧
      insertsOf (processChunks (failAt k) table f now ⟨tr, hist⟩ trf nb chunks).events =
        (chunks.flatten.take (k - tr - 1)).map
          (fun r => valuesToInsert (transformRowTotal now r)) ∧
      (metricsStats
        (processChunks (failAt k) table f now ⟨tr, hist⟩ trf nb chunks).events).length =
        k - tr - 1 := by
  intro chunks
  induction chunks with
  | nil =>
    intro tr hist trf nb _ _ h1 h2
    simp only [List.flatten_nil, List.length_nil, Nat.add_zero] at h2
    omega
  | cons c cs ih =>
    intro tr hist trf nb hparse hnic hk1 hk2
    simp only [List.flatten_cons, List.map_append, List.length_append] at hnic hk2 ⊢
    obtain ⟨dated, hconv, hmapTr⟩ := convert_to_date_ok now c
      (fun r hr => hparse c (List.mem_cons_self c cs) r hr)
    have hpr := map_price_transform now c
    have hlenr : (c.map (transformRowTotal now)).length = c.length := List.length_map c _
    have hlc := List.length_map c RawRow.price
    by_cases hcase : k ≤ tr + c.length
    · obtain ⟨o1, o2, o3, o4, o5⟩ := processRows_at_fail table f nb k
        (c.map (transformRowTotal now)) tr hist trf
        (by rw [hpr]; exact nic_split_left _ _ _ hnic)
        hk1
        (by omega)
      rw [hpr] at o2
      have hstep : processChunks (failAt k) table f now ⟨tr, hist⟩ trf nb (c :: cs) =
          processRows (failAt k) table f nb ⟨tr, hist⟩ trf
            (c.map (transformRowTotal now)) := by
        simp only [processChunks, hconv]
        rw [hmapTr, o1]
      have htake : ((c.map RawRow.price) ++ (cs.flatten.map RawRow.price)).take (k - tr) =
          (c.map RawRow.price).take (k - tr) :=
        List.take_append_of_le_length (by omega)
      have htake2 : (c ++ cs.flatten).take (k - tr - 1) = c.take (k - tr - 1) :=
        List.take_append_of_le_length (by omega)
      refine ⟨?_, ?_, ?_, ?_, ?_⟩
      · rw [hstep]; exact o1
      · rw [hstep, o2, htake]
      · rw [hstep]; exact o3
      · rw [hstep, o4]
        rw [htake2]
        rw [← List.map_take, List.map_map]
        rfl
      · rw [hstep]; exact o5
    · obtain ⟨o1, o2, o3, o4, o5⟩ := processRows_before_fail table f nb k
        (c.map (transformRowTotal now)) tr hist trf
        (by rw [hpr]; exact nic_split_left _ _ _ hnic)
        (by omega)
      rw [hpr] at o2
      rw [hlenr] at o2 o3
      have hstep : processChunks (failAt k) table f now ⟨tr, hist⟩ trf nb (c :: cs) =
          ⟨(processChunks (failAt k) table f now ⟨tr + c.length, hist ++ c.map RawRow.price⟩
              (trf + c.length) (nb + 1) cs).st,
           (processChunks (failAt k) table f now ⟨tr + c.length, hist ++ c.map RawRow.price⟩
              (trf + c.length) (nb + 1) cs).trf,
           (processRows (failAt k) table f nb ⟨tr, hist⟩ trf
              (c.map (transformRowTotal now))).events ++
             (processChunks (failAt k) table f now ⟨tr + c.length, hist ++ c.map RawRow.price⟩
              (trf + c.length) (nb + 1) cs).events,
           (processChunks (failAt k) table f now ⟨tr + c.length, hist ++ c.map RawRow.price⟩
              (trf + c.length) (nb + 1) cs).err⟩ := by
        simp only [processChunks, hconv]
        rw [hmapTr, o1, o2, o3]
      obtain ⟨g1, g2, g3, g4, g5⟩ := ih (tr + c.length) (hist ++ c.map RawRow.price)
        (trf + c.length) (nb + 1)
        (fun c' hc' r hr => hparse c' (List.mem_cons_of_mem c hc') r hr)
        (nic_split_right _ _ _ hnic)
        (by omega)
        (by have := List.length_map cs.flatten RawRow.price; omega)
      refine ⟨?_, ?_, ?_, ?_, ?_⟩
      · rw [hstep]; exact g1
      · rw [hstep, g2]
        have hlen2 : (List.map RawRow.price c).length = c.length :=
          List.length_map c RawRow.price
        have hfull : (List.map RawRow.price c).take (k - tr) = List.map RawRow.price c :=
          List.take_of_length_le (by rw [hlen2]; omega)
        have heq : k - tr - (List.map RawRow.price c).length = k - (tr + c.length) := by
          rw [hlen2]; omega
        have hsp : (hist ++ c.map RawRow.price) ++
            (cs.flatten.map RawRow.price).take (k - (tr + c.length)) =
            hist ++ ((c.map RawRow.price) ++ cs.flatten.map RawRow.price).take (k - tr) := by
          rw [List.append_assoc]
          congr 1
          rw [List.take_append_eq_append_take, hfull, heq]
        rw [hsp]
      · rw [hstep, g3]
        omega
      · rw [hstep, insertsOf_append, o4, g4]
        have hfull2 : c.take (k - tr - 1) = c :=
          List.take_of_length_le (by omega)
        have heq2 : k - tr - 1 - c.length = k - (tr + c.length) - 1 := by omega
        have hsp : (c.map (transformRowTotal now)).map valuesToInsert ++
            ((cs.flatten.take (k - (tr + c.length) - 1)).map
              (fun r => valuesToInsert (transformRowTotal now r))) =
            ((c ++ cs.flatten).take (k - tr - 1)).map
              (fun r => valuesToInsert (transformRowTotal now r)) := by
          rw [List.take_append_eq_append_take, hfull2, heq2]
          rw [List.map_append, List.map_map]
          rfl
        rw [hsp]
      · rw [hstep, metricsStats_append, List.length_append, o5, g5]
        rw [hlenr]
        omega

theorem allRawRows_cons (fc : String × List RawRow) (fcs : List (String × List RawRow)) :
    allRawRows (fc :: fcs) = fc.2 ++ allRawRows fcs := by
  simp [allRawRows]

theorem processFiles_at_fail (table : String) (cs now k : ℕ) (hcs : 1 ≤ cs) :
    ∀ (files : List (String × List RawRow)) (tr : ℕ) (hist : List (Option ℚ)),
      (∀ fc ∈ files, ∀ r ∈ fc.2, (strptime_mdY r.timestamp).isOk = true) →
      noInitialCrash hist ((allRawRows files).map RawRow.price) →
      tr < k →
      k ≤ tr + (allRawRows files).length →
      (processFiles (failAt k) table cs now ⟨tr, hist⟩ files).err =
        some PipelineError.PersistenceError ∧
      (processFiles (failAt k) table cs now ⟨tr, hist⟩ files).st =
        ⟨k, hist ++ ((allRawRows files).map RawRow.price).take (k - tr)⟩ ∧
      insertsOf (processFiles (failAt k) table cs now ⟨tr, hist⟩ files).events =
        ((allRawRows files).take (k - tr - 1)).map
          (fun r => valuesToInsert (transformRowTotal now r)) ∧
      (metricsStats
        (processFiles (failAt k) table cs now ⟨tr, hist⟩ files).events).length =
        k - tr - 1 ∧
      (∃ tprev, tr ≤ tprev ∧ tprev < k ∧
        (processFiles (failAt k) table cs now ⟨tr, hist⟩ files).trf = k - tprev) := by
  intro files
  induction files with
  | nil =>
    intro tr hist _ _ h1 h2
    simp only [allRawRows, List.map_nil, List.flatten_nil, List.length_nil,
      Nat.add_zero] at h2
    omega
  | cons fc fcs ih =>
    intro tr hist hparse hnic hk1 hk2
    rw [allRawRows_cons] at hnic hk2 ⊢
    simp only [List.map_append, List.length_append] at hnic hk2 ⊢
    have h0 : ¬ cs = 0 := by omega
    have hmb : micro_batches_generator cs fc.2 = Except.ok (chunksOf cs fc.2) := by
      simp [micro_batches_generator, h0]
    have hfl : (chunksOf cs fc.2).flatten = fc.2 := chunksOf_flatten cs fc.2
    have hparse1 : ∀ c ∈ chunksOf cs fc.2, ∀ r ∈ c,
        (strptime_mdY r.timestamp).isOk = true := by
      intro c hc r hr
      refine hparse fc (List.mem_cons_self fc fcs) r ?_
      rw [← hfl]
      exact List.mem_flatten.mpr ⟨c, hc, hr⟩
    by_cases hcase : k ≤ tr + fc.2.length
    · obtain ⟨o1, o2, o3, o4, o5⟩ := processChunks_at_fail table fc.1 now k
        (chunksOf cs fc.2) tr hist 0 1 hparse1
        (by rw [hfl]; exact nic_split_left _ _ _ hnic)
        hk1
        (by rw [hfl]; omega)
      rw [hfl] at o2 o4
      have hstep : processFiles (failAt k) table cs now ⟨tr, hist⟩ (fc :: fcs) =
          processChunks (failAt k) table fc.1 now ⟨tr, hist⟩ 0 1 (chunksOf cs fc.2) := by
        simp only [processFiles, hmb]
        rw [o1]
      have hlc : (List.map RawRow.price fc.2).length = fc.2.length :=
        List.length_map fc.2 RawRow.price
      refine ⟨?_, ?_, ?_, ?_, ?_⟩
      · rw [hstep]; exact o1
      · rw [hstep, o2]
        rw [List.take_append_of_le_length (by rw [hlc]; omega)]
      · rw [hstep, o4]
        rw [List.take_append_of_le_length (by omega)]
      · rw [hstep]; exact o5
      · refine ⟨tr, le_rfl, hk1, ?_⟩
        rw [hstep, o3]
        omega
    · obtain ⟨o1, o2, o3, o4, o5⟩ := processChunks_before_fail table fc.1 now k
        (chunksOf cs fc.2) tr hist 0 1 hparse1
        (by rw [hfl]; exact nic_split_left _ _ _ hnic)
        (by rw [hfl]; omega)
      rw [hfl] at o2 o3 o4 o5
      have hstep : processFiles (failAt k) table cs now ⟨tr, hist⟩ (fc :: fcs) =
          ⟨(processFiles (failAt k) table cs now
              ⟨tr + fc.2.length, hist ++ fc.2.map RawRow.price⟩ fcs).st,
           (processFiles (failAt k) table cs now
              ⟨tr + fc.2.length, hist ++ fc.2.map RawRow.price⟩ fcs).trf,
           (processChunks (failAt k) table fc.1 now ⟨tr, hist⟩ 0 1 (chunksOf cs fc.2)).events ++
             (processFiles (failAt k) table cs now
              ⟨tr + fc.2.length, hist ++ fc.2.map RawRow.price⟩ fcs).events,
           (processFiles (failAt k) table cs now
              ⟨tr + fc.2.length, hist ++ fc.2.map RawRow.price⟩ fcs).err⟩ := by
        simp only [processFiles, hmb]
        rw [o1, o2]
      obtain ⟨g1, g2, g3, g4, g5⟩ := ih (tr + fc.2.length) (hist ++ fc.2.map RawRow.price)
        (fun fc' hfc' r hr => hparse fc' (List.mem_cons_of_mem fc hfc') r hr)
        (nic_split_right _ _ _ hnic)
        (by omega)
        (by omega)
      have hlc : (List.map RawRow.price fc.2).length = fc.2.length :=
        List.length_map fc.2 RawRow.price
      refine ⟨?_, ?_, ?_, ?_, ?_⟩
      · rw [hstep]; exact g1
      · rw [hstep, g2]
        have hfull : (List.map RawRow.price fc.2).take (k - tr) =
            List.map RawRow.price fc.2 :=
          List.take_of_length_le (by rw [hlc]; omega)
        have heq : k - tr - (List.map RawRow.price fc.2).length =
            k - (tr + fc.2.length) := by
          rw [hlc]; omega
        have hsp : (hist ++ fc.2.map RawRow.price) ++
            ((allRawRows fcs).map RawRow.price).take (k - (tr + fc.2.length)) =
            hist ++ ((fc.2.map RawRow.price) ++
              (allRawRows fcs).map RawRow.price).take (k - tr) := by
          rw [List.append_assoc]
          congr 1
          rw [List.take_append_eq_append_take, hfull, heq]
        rw [hsp]
      · rw [hstep, insertsOf_append, o4, g3]
        have hfull2 : fc.2.take (k - tr - 1) = fc.2 :=
          List.take_of_length_le (by omega)
        have heq2 : k - tr - 1 - fc.2.length = k - (tr + fc.2.length) - 1 := by omega
        have hsp : fc.2.map (fun r => valuesToInsert (transformRowTotal now r)) ++
            ((allRawRows fcs).take (k - (tr + fc.2.length) - 1)).map
              (fun r => valuesToInsert (transformRowTotal now r)) =
            ((fc.2 ++ allRawRows fcs).take (k - tr - 1)).map
              (fun r => valuesToInsert (transformRowTotal now r)) := by
          rw [List.take_append_eq_append_take, hfull2, heq2, List.map_append]
        rw [hsp]
      · rw [hstep, metricsStats_append, List.length_append, o5, g4]
        omega
      · obtain ⟨tprev, ht1, ht2, ht3⟩ := g5
        refine ⟨tprev, by omega, ht2, ?_⟩
        rw [hstep]
        exact ht3

theorem nic_of_first_price (l : List RawRow)
    (hfirst : (l.head?.bind RawRow.price) ≠ none) :
    noInitialCrash [] (l.map RawRow.price) := by
  right
  intro p hp
  cases l with
  | nil => simp at hp
  | cons r rs =>
    simp only [List.map_cons, List.head?_cons, Option.some_inj] at hp
    subst hp
    simpa using hfirst

/-- C8: if the Row Loader raises on row `k` of the run (a database that
rejects exactly the `k`-th single-row INSERT), every row processed before
row `k` has already been persisted (the inserts are exactly the first
`k - 1` transformed rows), the `PersistenceError` propagates out of the
Pipeline Driver unmodified, and no row after row `k` and no subsequent
file is processed or loaded: exactly `k` rows were touched and `k - 1`
metrics records were emitted. -/
theorem loader_failure_aborts_run (table : String) (cs now k : ℕ)
    (files : List (String × List RawRow))
    (hcs : 1 ≤ cs)
    (hparse : ∀ fc ∈ files, ∀ r ∈ Prod.snd fc, (strptime_mdY r.timestamp).isOk = true)
    (hk1 : 1 ≤ k) (hk2 : k ≤ (allRawRows files).length)
    (hfirst : ((allRawRows files).head?.bind RawRow.price) ≠ none) :
    (run_data_pipeline (failAt k) table cs now files).err =
      some PipelineError.PersistenceError ∧
    insertsOf (run_data_pipeline (failAt k) table cs now files).events =
      ((allRawRows files).take (k - 1)).map
        (fun r => valuesToInsert (transformRowTotal now r)) ∧
    (metricsStats (run_data_pipeline (failAt k) table cs now files).events).length =
      k - 1 ∧
    (run_data_pipeline (failAt k) table cs now files).st.total_rows = k := by
  obtain ⟨o1, o2, o3, o4, o5⟩ := processFiles_at_fail table cs now k hcs files 0 []
    hparse (nic_of_first_price _ hfirst) (by omega) (by omega)
  refine ⟨o1, ?_, ?_, ?_⟩
  · simpa [run_data_pipeline] using o3
  · simpa [run_data_pipeline] using o4
  · simp only [run_data_pipeline]
    rw [o2]

/-- Witness for C8: two files with three rows, loader failing at global
row 2 (the second row of the first file). -/
theorem loader_failure_aborts_run_witness :
    (run_data_pipeline (failAt 2) "t" 1 0 exampleFiles).err =
      some PipelineError.PersistenceError ∧
    insertsOf (run_data_pipeline (failAt 2) "t" 1 0 exampleFiles).events =
      ((allRawRows exampleFiles).take (2 - 1)).map
        (fun r => valuesToInsert (transformRowTotal 0 r)) ∧
    (metricsStats (run_data_pipeline (failAt 2) "t" 1 0 exampleFiles).events).length =
      2 - 1 ∧
    (run_data_pipeline (failAt 2) "t" 1 0 exampleFiles).st.total_rows = 2 :=
  loader_failure_aborts_run "t" 1 0 2 exampleFiles (by decide)
    (by with_unfolding_all decide) (by decide) (by decide) (by decide)

/-- C10: if the Row Loader raises on row `k`, the Pipeline Driver's state
has already been updated for row `k` before the error propagates:
`total_rows` equals `k`, `prices` contains row `k`'s price (it is the
length-`k` price history), and the per-file counter was incremented — yet
only `k - 1` metrics records exist, none for row `k`.  The per-row update
is not atomic with a load failure: at the failing row, `processRow`
increments both counters and appends the price but emits no insert and no
metrics event. -/
theorem loader_failure_state_updated (table : String) (cs now k : ℕ)
    (files : List (String × List RawRow))
    (hcs : 1 ≤ cs)
    (hparse : ∀ fc ∈ files, ∀ r ∈ Prod.snd fc, (strptime_mdY r.timestamp).isOk = true)
    (hk1 : 1 ≤ k) (hk2 : k ≤ (allRawRows files).length)
    (hfirst : ((allRawRows files).head?.bind RawRow.price) ≠ none) :
    (run_data_pipeline (failAt k) table cs now files).st.total_rows = k ∧
    (run_data_pipeline (failAt k) table cs now files).st.prices =
      ((allRawRows files).map RawRow.price).take k ∧
    (metricsStats (run_data_pipeline (failAt k) table cs now files).events).length =
      k - 1 ∧
    (∃ tprev, tprev < k ∧
      (run_data_pipeline (failAt k) table cs now files).trf = k - tprev) ∧
    (∀ (loadOk2 : ℕ → Bool) (table2 f2 : String) (nb2 : ℕ)
        (st : DriverState) (trf : ℕ) (r : TRow),
      (st.prices ++ [r.price]).filterMap id ≠ [] →
      loadOk2 (st.total_rows + 1) = false →
      processRow loadOk2 table2 f2 nb2 st trf r =
        ⟨⟨st.total_rows + 1, st.prices ++ [r.price]⟩, trf + 1, [],
         some PipelineError.PersistenceError⟩) := by
  obtain ⟨o1, o2, o3, o4, o5⟩ := processFiles_at_fail table cs now k hcs files 0 []
    hparse (nic_of_first_price _ hfirst) (by omega) (by omega)
  refine ⟨?_, ?_, ?_, ?_, ?_⟩
  · simp only [run_data_pipeline]
    rw [o2]
  · simp only [run_data_pipeline]
    rw [o2]
    simp
  · simpa [run_data_pipeline] using o4
  · obtain ⟨tprev, ht1, ht2, ht3⟩ := o5
    exact ⟨tprev, ht2, by simpa [run_data_pipeline] using ht3⟩
  · intro loadOk2 table2 f2 nb2 st trf r hvne hld
    exact processRow_loadfail loadOk2 table2 f2 nb2 st trf r hvne hld

/-- Witness for C10: loader failing at global row 3 (the only row of the
second file). -/
theorem loader_failure_state_updated_witness :
    (run_data_pipeline (failAt 3) "t" 1 0 exampleFiles).st.total_rows = 3 ∧
    (run_data_pipeline (failAt 3) "t" 1 0 exampleFiles).st.prices =
      ((allRawRows exampleFiles).map RawRow.price).take 3 ∧
    (metricsStats (run_data_pipeline (failAt 3) "t" 1 0 exampleFiles).events).length =
      3 - 1 ∧
    (∃ tprev, tprev < 3 ∧
      (run_data_pipeline (failAt 3) "t" 1 0 exampleFiles).trf = 3 - tprev) ∧
    (∀ (loadOk2 : ℕ → Bool) (table2 f2 : String) (nb2 : ℕ)
        (st : DriverState) (trf : ℕ) (r : TRow),
      (st.prices ++ [r.price]).filterMap id ≠ [] →
      loadOk2 (st.total_rows + 1) = false →
      processRow loadOk2 table2 f2 nb2 st trf r =
        ⟨⟨st.total_rows + 1, st.prices ++ [r.price]⟩, trf + 1, [],
         some PipelineError.PersistenceError⟩) :=
  loader_failure_state_updated "t" 1 0 3 exampleFiles (by decide)
    (by with_unfolding_all decide) (by decide) (by decide) (by decide)
